import Mathlib

/-!
Shallow embedding of the khollbach/chip-8 interpreter (Rust) in Lean 4,
together with proofs of the specification claims C1-C10.

The embedding follows the current trait-based revision of the source
(`src/cpu.rs`, `src/cpu/screen.rs`, `src/cpu/regs.rs`, `src/mem.rs`,
`src/stack.rs`, `src/terminal_io/screen.rs`, `src/terminal_io/keyboard.rs`).
Machine integers are modelled as `Nat` (with explicit `% 2^w` where Rust
wraps) and `Int` for the signed 8-bit screen coordinates; Rust panics
(asserts, unwraps, `panic!`) are modelled as `Except` errors.
-/

/-! ### Signed 8-bit cast

Models Rust's `as i8` cast of an unsigned value: take the low 8 bits and
reinterpret them as a two's-complement signed byte. -/

def toI8 (b : Nat) : Int :=
  if b % 256 < 128 then ((b % 256 : Nat) : Int) else ((b % 256 : Nat) : Int) - 256

/-! ### `src/cpu/screen.rs` — `Point` and the 64x32 grid -/

/-- `pub const DIMS: Point = Point { x: 64, y: 32 }` (dimensions of the grid).
A coordinate is a pair of signed 8-bit values; we model `i8` as `Int`
(all reachable arithmetic stays far inside the `i8` range). -/
@[ext]
structure Point where
  x : Int
  y : Int
  deriving DecidableEq

def DIMS : Point := ⟨64, 32⟩

/-- `Point::wrap`: `rem_euclid` against the grid dimensions
(`Int.emod` is Rust's `rem_euclid` for a positive modulus). -/
def Point.wrap (p : Point) : Point :=
  ⟨p.x.emod DIMS.x, p.y.emod DIMS.y⟩

/-- `Point::in_bounds`. -/
def Point.in_bounds (p : Point) : Bool :=
  (0 ≤ p.x && p.x < DIMS.x) && (0 ≤ p.y && p.y < DIMS.y)

/-- `impl Add for Point` (componentwise addition). -/
def Point.add (p q : Point) : Point :=
  ⟨p.x + q.x, p.y + q.y⟩

/-! ### `src/terminal_io/screen.rs` — the display buffer -/

/-- `Screen { rows: [[bool; 64]; 32] }`, modelled as a total function
`rows y x`; only arguments `0 ≤ y < 32`, `0 ≤ x < 64` are ever read or
written by the interpreter (`flip` is guarded by `in_bounds`). -/
@[ext]
structure Screen where
  rows : Int → Int → Bool

/-- `Screen::new` / `Screen::clear`: all pixels unset. -/
def Screen.new : Screen := ⟨fun _ _ => false⟩

/-- `Screen::flip`: XOR the pixel at `p` with `true`; return the new screen
together with `was_high` (`true` means a collision).  The source asserts
`p.in_bounds()`; every call site checks `in_bounds` first. -/
def Screen.flip (s : Screen) (p : Point) : Screen × Bool :=
  let was_high := s.rows p.y p.x
  (⟨fun y x => if y = p.y ∧ x = p.x then !s.rows y x else s.rows y x⟩, was_high)

/-- Position of the sprite bit `(dy, dx)` relative to `top_left`:
`top_left + (dx, dy as i8)` from the inner loop of `Screen::draw_sprite`. -/
def posOf (top_left : Point) (e : Nat × Nat) : Point :=
  top_left.add ⟨(e.2 : Int), toI8 e.1⟩

/-- Body of the double loop of `Screen::draw_sprite`, for the row/column
offset pair `e = (dy, dx)`: skip the pixel when out of bounds (clipping
quirk), otherwise XOR sprite bit `7 - dx` of row `dy` into the grid,
accumulating the collision flag. -/
def drawStep (top_left : Point) (sprite : List Nat) (acc : Screen × Bool)
    (e : Nat × Nat) : Screen × Bool :=
  -- `let pos = top_left + (dx, dy as i8)`; `if !pos.in_bounds() { continue }`
  if (posOf top_left e).in_bounds then
    -- `let row = sprite[dy]; let bit = 1 << (7 - dx); if row & bit != 0 { .. }`
    if sprite.getD e.1 0 &&& (1 <<< (7 - e.2)) ≠ 0 then
      ((acc.1.flip (posOf top_left e)).1, acc.2 || (acc.1.flip (posOf top_left e)).2)
    else acc
  else acc

/-- `Screen::draw_sprite`: `for dy in 0..sprite.len() { for dx in 0..8 { .. } }`,
starting from `(self, collision = false)`; returns the final screen and the
collision flag (`DrawSprite::Collision` ↦ `true`). -/
def Screen.draw_sprite (s : Screen) (top_left : Point) (sprite : List Nat) :
    Screen × Bool :=
  (List.range sprite.length).foldl
    (fun acc dy => (List.range 8).foldl
      (fun acc2 dx => drawStep top_left sprite acc2 (dy, dx)) acc)
    (s, false)

/-! ### Specification-side predicates for the draw loop -/

/-- The offset pair `e = (dy, dx)` actually flips a pixel: its position is
in bounds and the corresponding sprite bit is set. -/
def flipsB (top_left : Point) (sprite : List Nat) (e : Nat × Nat) : Bool :=
  (posOf top_left e).in_bounds &&
    decide (sprite.getD e.1 0 &&& (1 <<< (7 - e.2)) ≠ 0)

/-- The offset pair `e` flips precisely the pixel `(y, x)`. -/
def hitsB (top_left : Point) (sprite : List Nat) (e : Nat × Nat) (y x : Int) :
    Bool :=
  flipsB top_left sprite e &&
    decide ((posOf top_left e).y = y ∧ (posOf top_left e).x = x)

/-- The flattened index list of the double loop, outer `dy`, inner `dx`. -/
def rowCols (n : Nat) : List (Nat × Nat) :=
  (List.range n).flatMap fun dy => (List.range 8).map fun dx => (dy, dx)
/-! ### The cpu-level draw (cpu.rs `Chip8::draw_sprite` origin computation) -/

/-- Origin computation from `Chip8::draw_sprite` (cpu.rs):
`Point::from((self.v[x] as i8, self.v[y] as i8)).wrap()` applied to the two
register values. -/
def sprite_origin (vx vy : Nat) : Point :=
  (Point.mk (toI8 vx) (toI8 vy)).wrap

/-- `Chip8::draw_sprite` (cpu.rs) wired through `TerminalIo::draw_sprite` to
`Screen::draw_sprite` (terminal_io/screen.rs): draw `sprite` with origin
`(V[x], V[y])` interpreted as signed bytes and wrapped. -/
def draw_at_regs (vx vy : Nat) (sprite : List Nat) (s : Screen) : Screen × Bool :=
  s.draw_sprite (sprite_origin vx vy) sprite

/-! ### Fatal errors

Rust panics of the interpreter, as `Except` errors.  Each constructor keeps
exactly the data its panic message prints. -/

inductive Chip8Error where
  /-- `panic!("unimplemented: 0x{instr:04x} (pc=0x{old_pc:04x})")` — the
  decode-error diagnostic carries the raw word and the pre-advance PC. -/
  | decodeError (instr : Nat) (pc : Nat)
  /-- `assert_eq!(n, 0)` — the panic reports only the two compared values. -/
  | assertEqFailed (left right : Nat)
  /-- a bare `assert!` / `debug_assert!` — no data in the diagnostic. -/
  | assertFailed
  /-- `panic!("stack overflow")` in `Stack::push`. -/
  | stackOverflow
  /-- `self.values.pop().unwrap()` panicking on an empty stack. -/
  | stackUnderflow
  /-- `assert!(rom_start + rom.len() <= Self::LEN)` in `Mem::new`. -/
  | programTooLarge
  /-- Rust slice-index panic (address out of the 4096-byte memory). -/
  | outOfBounds (addr : Nat)
  /-- the `0x10.. => unreachable!()` arm (not reachable for u8 memory). -/
  | unreachableCode
  deriving DecidableEq

/-! ### `src/stack.rs` — the call stack -/

/-- `CAPACITY` in stack.rs. -/
def Stack.CAPACITY : Nat := 16

/-- `Stack::push` (`Vec` order: index 0 is the bottom, push appends):
panics ("stack overflow") when 16 values are already present. -/
def Stack.push (values : List Nat) (value : Nat) : Except Chip8Error (List Nat) :=
  if Stack.CAPACITY ≤ values.length then .error .stackOverflow
  else .ok (values ++ [value])

/-- `Stack::pop`: `self.values.pop().unwrap()` — removes and returns the most
recent entry; panics on an empty stack. -/
def Stack.pop (values : List Nat) : Except Chip8Error (Nat × List Nat) :=
  match values.getLast? with
  | none => .error .stackUnderflow
  | some v => .ok (v, values.dropLast)

/-! ### `src/mem.rs` — memory -/

/-- `Mem { bytes: Box<[u8; 4096]> }`, modelled as a total function; only
addresses `< 4096` are ever read or written (reads and writes are
bounds-checked, modelling the Rust index panic). -/
structure Mem where
  bytes : Nat → Nat

def Mem.LEN : Nat := 4 * 1024

def Mem.ROM_START : Nat := 0x200

/-- `DIGITS`, flattened: the 80 bytes of built-in hex-digit sprites that
`Mem::new` copies to addresses `0x000..0x050`. -/
def digits_rom : List Nat :=
  [[0xF0, 0x90, 0x90, 0x90, 0xF0],
   [0x20, 0x60, 0x20, 0x20, 0x70],
   [0xF0, 0x10, 0xF0, 0x80, 0xF0],
   [0xF0, 0x10, 0xF0, 0x10, 0xF0],
   [0x90, 0x90, 0xF0, 0x10, 0x10],
   [0xF0, 0x80, 0xF0, 0x10, 0xF0],
   [0xF0, 0x80, 0xF0, 0x90, 0xF0],
   [0xF0, 0x10, 0x20, 0x40, 0x40],
   [0xF0, 0x90, 0xF0, 0x90, 0xF0],
   [0xF0, 0x90, 0xF0, 0x10, 0xF0],
   [0xF0, 0x90, 0xF0, 0x90, 0x90],
   [0xE0, 0x90, 0xE0, 0x90, 0xE0],
   [0xF0, 0x80, 0x80, 0x80, 0xF0],
   [0xE0, 0x90, 0x90, 0x90, 0xE0],
   [0xF0, 0x80, 0xF0, 0x80, 0xF0],
   [0xF0, 0x80, 0xF0, 0x80, 0x80]].flatten

/-- `Mem::new`: `assert!(rom_start + rom.len() <= Self::LEN)` (the
construction error), then zero-fill, copy the ROM to `0x200..0x200+len`, and
copy the digit sprites to `0x000..0x050` (the two regions are disjoint, so
the copy order is immaterial). -/
def Mem.new (rom : List Nat) : Except Chip8Error Mem :=
  if Mem.ROM_START + rom.length ≤ Mem.LEN then
    .ok ⟨fun a =>
      if a < digits_rom.length then digits_rom.getD a 0
      else if Mem.ROM_START ≤ a ∧ a < Mem.ROM_START + rom.length then
        rom.getD (a - Mem.ROM_START) 0
      else 0⟩
  else .error .programTooLarge

/-- Bounds-checked read `self.bytes[index as usize]` (Rust panics out of
bounds; `Mem::LEN = 4096`). -/
def Mem.read (m : Mem) (a : Nat) : Except Chip8Error Nat :=
  if a < Mem.LEN then .ok (m.bytes a) else .error (.outOfBounds a)

/-- Bounds-checked write `self.bytes[index as usize] = v`. -/
def Mem.write (m : Mem) (a v : Nat) : Except Chip8Error Mem :=
  if a < Mem.LEN then .ok ⟨fun b => if b = a then v else m.bytes b⟩
  else .error (.outOfBounds a)

/-- `Mem::sprite_offset`.  Modelled from the spec: the function itself is in
a revision of `mem.rs` not present under `src/` (only its call site
`0xF,k=0x29` is); the spec says "I ← address of built-in hex-digit sprite for
digit V[x] (digit*5)". -/
def Mem.sprite_offset (digit : Nat) : Nat := digit * 5

/-! ### `src/cpu/regs.rs` — registers -/

/-- `Regs { regs: [u8; 16] }`, modelled as a total function; the interpreter
only ever indexes it with nibbles (`< 16`, within the Rust array bounds). -/
def Regs := Nat → Nat

/-- `Regs::new`: all registers zero. -/
def Regs.new : Regs := fun _ => 0

/-- `self.v[i] = val` (the `IndexMut` impl). -/
def setV (v : Regs) (i val : Nat) : Regs :=
  fun r => if r = i then val else v r

/-! ### `src/cpu/io.rs` — the `Chip8Io` trait

The I/O boundary, as a record of pure state transformers over an abstract
I/O state `σ` (the trait object `&mut dyn Chip8Io`).  `DrawSprite` is
modelled as `Bool` (`true` = `Collision`). -/

structure Chip8IoModel (σ : Type) where
  update : σ → σ
  clear_screen : σ → σ
  get_random_byte : σ → Nat × σ
  draw_sprite : σ → Point → List Nat → Bool × σ
  is_key_pressed : σ → Nat → Bool × σ
  blocking_get_key : σ → Nat × σ
  read_delay_timer : σ → Nat × σ
  write_delay_timer : σ → Nat → σ
  write_sound_timer : σ → Nat → σ

/-! ### `src/cpu.rs` — the interpreter -/

/-- `Chip8 { pc, i, stack, v, mem, io }`; the I/O trait object is passed to
`step` separately (`Chip8IoModel` + its state). -/
structure Chip8 where
  pc : Nat
  i : Nat
  stack : List Nat
  v : Regs
  mem : Mem

/-- `Chip8::new` (cpu.rs): `pc = ROM_START, i = 0`, empty stack, zeroed
registers, `Mem::new(rom)` (whose construction error propagates before any
instruction executes). -/
def Chip8.new (rom : List Nat) : Except Chip8Error Chip8 := do
  let mem ← Mem.new rom
  .ok { pc := Mem.ROM_START, i := 0, stack := [], v := Regs.new, mem := mem }

/-- `nibbles_from_u16` (big-endian nibble order `[a, b, c, d]`). -/
def nibbles_from_u16 (x : Nat) : Nat × Nat × Nat × Nat :=
  ((x &&& 0xf000) >>> (4 * 3), (x &&& 0x0f00) >>> (4 * 2),
   (x &&& 0x00f0) >>> (4 * 1), (x &&& 0x000f) >>> (4 * 0))

/-- `bcd_from_u8`: `[ones, tens, hundreds]` reversed to
`[hundreds, tens, ones]`. -/
def bcd_from_u8 (x : Nat) : List Nat :=
  [x % 10, x / 10 % 10, x / 10 / 10 % 10].reverse

/-- `Chip8::draw_sprite` (cpu.rs): assert the nibble preconditions and
`i + n <= LEN`, compute the wrapped signed origin from `(V[x], V[y])`, slice
the sprite `mem[i..i+n]`, delegate to `io.draw_sprite`, and store the
collision flag (`as u8`) in `V[0xF]`. -/
def Chip8.draw_sprite {σ : Type} (io : Chip8IoModel σ) (m : Chip8) (s : σ)
    (x y n : Nat) : Except Chip8Error (Chip8 × σ) :=
  if x ≤ 0xf ∧ y ≤ 0xf ∧ n ≤ 0xf ∧ m.i + n ≤ Mem.LEN then
    let xy := (Point.mk (toI8 (m.v x)) (toI8 (m.v y))).wrap
    let sprite := (List.range n).map fun dy => m.mem.bytes (m.i + dy)
    let res := io.draw_sprite s xy sprite
    .ok ({ m with v := setV m.v 0xf (if res.1 then 1 else 0) }, res.2)
  else .error .assertFailed

/-- Execute the decoded instruction `instr` (fetched from `old_pc`); `m.pc`
has already been advanced by 2.  Mirrors the `match op { .. }` dispatch of
`Chip8::step` (cpu.rs); each unlisted case is the `err()` closure
`panic!("unimplemented: 0x{instr:04x} (pc=0x{old_pc:04x})")`. -/
def Chip8.exec {σ : Type} (io : Chip8IoModel σ) (m : Chip8) (s : σ)
    (instr old_pc : Nat) : Except Chip8Error (Chip8 × σ) :=
  match nibbles_from_u16 instr with
  | (op, x, y, n) =>
    -- `addr` is the low 12 bits, `k` the low byte (the second fetched byte)
    let addr := instr &&& 0x0fff
    let k := instr &&& 0x00ff
    if op = 0x0 then
      if instr = 0x00e0 then .ok (m, io.clear_screen s)
      else if instr = 0x00ee then do
        let res ← Stack.pop m.stack
        .ok ({ m with pc := res.1, stack := res.2 }, s)
      else .error (.decodeError instr old_pc)
    else if op = 0x1 then .ok ({ m with pc := addr }, s)
    else if op = 0x2 then do
      let st ← Stack.push m.stack m.pc
      .ok ({ m with stack := st, pc := addr }, s)
    else if op = 0x3 then
      .ok (if m.v x = k then { m with pc := m.pc + 2 } else m, s)
    else if op = 0x4 then
      .ok (if m.v x ≠ k then { m with pc := m.pc + 2 } else m, s)
    else if op = 0x5 then
      if n = 0 then
        .ok (if m.v x = m.v y then { m with pc := m.pc + 2 } else m, s)
      else .error (.assertEqFailed n 0)
    else if op = 0x6 then .ok ({ m with v := setV m.v x k }, s)
    else if op = 0x7 then
      .ok ({ m with v := setV m.v x ((m.v x + k) % 256) }, s)
    else if op = 0x8 then
      if n = 0x0 then .ok ({ m with v := setV m.v x (m.v y) }, s)
      else if n = 0x1 then
        .ok ({ m with v := setV (setV m.v x (m.v x ||| m.v y)) 0xf 0 }, s)
      else if n = 0x2 then
        .ok ({ m with v := setV (setV m.v x (m.v x &&& m.v y)) 0xf 0 }, s)
      else if n = 0x3 then
        .ok ({ m with v := setV (setV m.v x (m.v x ^^^ m.v y)) 0xf 0 }, s)
      else if n = 0x4 then
        -- `overflowing_add`: wrapped sum and carry flag
        .ok ({ m with v := setV (setV m.v x ((m.v x + m.v y) % 256)) 0xf (if 256 ≤ m.v x + m.v y then 1 else 0) }, s)
      else if n = 0x5 then
        -- `overflowing_sub`: wrapped difference and `!borrow`
        .ok ({ m with v := setV (setV m.v x ((m.v x + 256 - m.v y) % 256)) 0xf (if m.v x < m.v y then 0 else 1) }, s)
      else if n = 0x6 then
        .ok ({ m with v := setV (setV m.v x (m.v y >>> 1)) 0xf (m.v y % 2) }, s)
      else if n = 0x7 then
        -- `y - x`
        .ok ({ m with v := setV (setV m.v x ((m.v y + 256 - m.v x) % 256)) 0xf (if m.v y < m.v x then 0 else 1) }, s)
      else if n = 0xe then
        -- u8 `<<` keeps the low 8 bits
        .ok ({ m with v := setV (setV m.v x ((m.v y <<< 1) % 256)) 0xf (if m.v y &&& (1 <<< 7) ≠ 0 then 1 else 0) }, s)
      else .error (.decodeError instr old_pc)
    else if op = 0x9 then
      if n = 0 then
        .ok (if m.v x ≠ m.v y then { m with pc := m.pc + 2 } else m, s)
      else .error (.assertEqFailed n 0)
    else if op = 0xa then .ok ({ m with i := addr }, s)
    else if op = 0xb then .ok ({ m with pc := addr + m.v 0 }, s)
    else if op = 0xc then
      let res := io.get_random_byte s
      .ok ({ m with v := setV m.v x (res.1 &&& k) }, res.2)
    else if op = 0xd then Chip8.draw_sprite io m s x y n
    else if op = 0xe then
      if k = 0x9e then
        let res := io.is_key_pressed s (m.v x)
        .ok (if res.1 then { m with pc := m.pc + 2 } else m, res.2)
      else if k = 0xa1 then
        let res := io.is_key_pressed s (m.v x)
        .ok (if ¬res.1 then { m with pc := m.pc + 2 } else m, res.2)
      else .error (.decodeError instr old_pc)
    else if op = 0xf then
      if k = 0x07 then
        let res := io.read_delay_timer s
        .ok ({ m with v := setV m.v x res.1 }, res.2)
      else if k = 0x0a then
        let res := io.blocking_get_key s
        .ok ({ m with v := setV m.v x res.1 }, res.2)
      else if k = 0x15 then .ok (m, io.write_delay_timer s (m.v x))
      else if k = 0x18 then .ok (m, io.write_sound_timer s (m.v x))
      else if k = 0x1e then .ok ({ m with i := (m.i + m.v x) % 65536 }, s)
      else if k = 0x29 then .ok ({ m with i := Mem.sprite_offset (m.v x) }, s)
      else if k = 0x33 then do
        let mem ← (List.range (bcd_from_u8 (m.v x)).length).foldlM
          (fun mm off => mm.write (m.i + off) ((bcd_from_u8 (m.v x)).getD off 0))
          m.mem
        .ok ({ m with mem := mem }, s)
      else if k = 0x55 then do
        -- write registers V[0..=x] to memory, then `i += x + 1`
        let mem ← (List.range (x + 1)).foldlM
          (fun mm reg => mm.write (m.i + reg) (m.v reg)) m.mem
        .ok ({ m with mem := mem, i := (m.i + x + 1) % 65536 }, s)
      else if k = 0x65 then do
        -- read memory into registers V[0..=x], then `i += x + 1`
        let v ← (List.range (x + 1)).foldlM
          (fun vv reg => do
            let b ← m.mem.read (m.i + reg)
            .ok (setV vv reg b)) m.v
        .ok ({ m with v := v, i := (m.i + x + 1) % 65536 }, s)
      else .error (.decodeError instr old_pc)
    else .error .unreachableCode

/-- `Chip8::step` (cpu.rs): check `pc < LEN` (`debug_assert!`), fetch the two
big-endian instruction bytes, remember `old_pc`, advance `pc` by 2, and
dispatch. -/
def Chip8.step {σ : Type} (io : Chip8IoModel σ) (m : Chip8) (s : σ) :
    Except Chip8Error (Chip8 × σ) := do
  if m.pc < Mem.LEN then
    let j ← m.mem.read m.pc
    let k ← m.mem.read (m.pc + 1)
    -- `u16::from_be_bytes([j, k])` (bytes are u8, i.e. `< 256`)
    let instr := j * 256 + k
    Chip8.exec io { m with pc := m.pc + 2 } s instr m.pc
  else .error .assertFailed

/-- A trivial, stateless I/O implementation (the headless test adapter of
the spec's §6), used to instantiate witnesses. -/
def unitIo : Chip8IoModel Unit where
  update := id
  clear_screen := id
  get_random_byte := fun s => (0, s)
  draw_sprite := fun s _ _ => (false, s)
  is_key_pressed := fun s _ => (false, s)
  blocking_get_key := fun s => (0, s)
  read_delay_timer := fun s => (0, s)
  write_delay_timer := fun s _ => s
  write_sound_timer := fun s _ => s
/-- A small concrete machine used by the witnesses: PC at 0x200, I at 0x300,
`V1 = 0xCC`, `V2 = 0xAA`, the two instruction bytes `hi lo` at 0x200/0x201. -/
def demoMachine (hi lo : Nat) : Chip8 :=
  { pc := 0x200, i := 0x300, stack := [],
    v := fun r => if r = 1 then 0xCC else if r = 2 then 0xAA else 0,
    mem := ⟨fun a => if a = 0x200 then hi else if a = 0x201 then lo else 0⟩ }

/-! ### `src/terminal_io/keyboard.rs` — the blocking key-wait -/

/-- `Keyboard { pressed: [bool; 16] }` (total function; `filter_event` only
produces keycodes `< 16`, within the Rust array bounds). -/
structure Keyboard where
  pressed : Nat → Bool

/-- One element of the event stream: the outcome of `filter_event` on one
(blocking) `event::read()` — `none` for an irrelevant terminal event,
`some (k, pressed)` for a mapped key event (`pressed` is `true` for
`Press`/`Repeat`, `false` for `Release`). -/
def isRelease : Option (Nat × Bool) → Bool
  | some (_, false) => true
  | _ => false

/-- `Keyboard::wait_for_key_release`: loop over `event::read()`, update
`pressed[k]` on every mapped key event, and return `k` as soon as one with
`!pressed` (a release) arrives.  A `none` result models the loop never
returning (the stream is exhausted without any release). -/
def Keyboard.wait_for_key_release :
    Keyboard → List (Option (Nat × Bool)) → Option (Nat × Keyboard)
  | _, [] => none
  | kb, none :: rest => kb.wait_for_key_release rest
  | kb, some (k, pressed) :: rest =>
    let kb' : Keyboard := ⟨fun idx => if idx = k then pressed else kb.pressed idx⟩
    if pressed then kb'.wait_for_key_release rest else some (k, kb')

/-! ### Characterization of the draw loop -/

theorem anyCongr {α : Type} {p q : α → Bool} :
    ∀ (L : List α), (∀ a ∈ L, p a = q a) → L.any p = L.any q := by
  intro L
  induction L with
  | nil => intro _; rfl
  | cons e L ih =>
    intro h
    simp only [List.any_cons]
    rw [h e (by simp), ih fun a ha => h a (by simp [ha])]

theorem drawStep_of_not_flips {tl : Point} {sp : List Nat} {e : Nat × Nat}
    (h : flipsB tl sp e = false) (acc : Screen × Bool) :
    drawStep tl sp acc e = acc := by
  unfold drawStep
  by_cases hb : (posOf tl e).in_bounds = true
  · have h0 : sp.getD e.1 0 &&& 1 <<< (7 - e.2) = 0 := by
      unfold flipsB at h
      rw [hb] at h
      simpa using h
    rw [if_pos hb, if_neg (show ¬sp.getD e.1 0 &&& 1 <<< (7 - e.2) ≠ 0 from fun hc => hc h0)]
  · rw [if_neg hb]

theorem drawStep_of_flips {tl : Point} {sp : List Nat} {e : Nat × Nat}
    (h : flipsB tl sp e = true) (s : Screen) (c : Bool) :
    drawStep tl sp (s, c) e =
      ((s.flip (posOf tl e)).1,
        c || s.rows (posOf tl e).y (posOf tl e).x) := by
  unfold flipsB at h
  simp only [Bool.and_eq_true, decide_eq_true_eq] at h
  unfold drawStep
  rw [if_pos h.1, if_pos h.2]
  rfl

theorem foldl_drawStep_spec (tl : Point) (sp : List Nat) :
    ∀ (L : List (Nat × Nat)), L.Nodup →
      (∀ a ∈ L, ∀ b ∈ L, posOf tl a = posOf tl b → a = b) →
      ∀ (s : Screen) (c : Bool),
        (∀ y x, (L.foldl (drawStep tl sp) (s, c)).1.rows y x
            = xor (s.rows y x) (L.any fun e => hitsB tl sp e y x))
        ∧ (L.foldl (drawStep tl sp) (s, c)).2
            = (c || L.any fun e => flipsB tl sp e
                  && s.rows (posOf tl e).y (posOf tl e).x) := by
  intro L
  induction L with
  | nil => intro _ _ s c; simp
  | cons e L ih =>
    intro hnd hinj s c
    have hndL : L.Nodup := (List.nodup_cons.mp hnd).2
    have heL : e ∉ L := (List.nodup_cons.mp hnd).1
    have hinjL : ∀ a ∈ L, ∀ b ∈ L, posOf tl a = posOf tl b → a = b :=
      fun a ha b hb => hinj a (by simp [ha]) b (by simp [hb])
    rw [List.foldl_cons]
    by_cases hf : flipsB tl sp e = true
    · rw [drawStep_of_flips hf]
      obtain ⟨ihrows, ihcol⟩ :=
        ih hndL hinjL (s.flip (posOf tl e)).1 (c || s.rows (posOf tl e).y (posOf tl e).x)
      constructor
      · intro y x
        rw [ihrows y x]
        by_cases hyx : y = (posOf tl e).y ∧ x = (posOf tl e).x
        · have hs1 : (s.flip (posOf tl e)).1.rows y x = !s.rows y x := by
            simp only [Screen.flip]
            rw [if_pos hyx]
          have hhe : hitsB tl sp e y x = true := by
            unfold hitsB
            simp [hf, hyx.1.symm, hyx.2.symm]
          have hLany : (L.any fun b => hitsB tl sp b y x) = false := by
            by_contra hany
            rw [Bool.not_eq_false, List.any_eq_true] at hany
            obtain ⟨b, hbL, hb⟩ := hany
            unfold hitsB at hb
            simp only [Bool.and_eq_true, decide_eq_true_eq] at hb
            have hpos : posOf tl b = posOf tl e :=
              Point.ext (hb.2.2.trans hyx.2) (hb.2.1.trans hyx.1)
            exact heL (hinj b (by simp [hbL]) e (by simp) hpos ▸ hbL)
          rw [hs1, hLany, List.any_cons, hhe]
          simp
        · have hs1 : (s.flip (posOf tl e)).1.rows y x = s.rows y x := by
            simp only [Screen.flip]
            rw [if_neg hyx]
          have hhe : hitsB tl sp e y x = false := by
            unfold hitsB
            have : ¬((posOf tl e).y = y ∧ (posOf tl e).x = x) :=
              fun hc => hyx ⟨hc.1.symm, hc.2.symm⟩
            simp [this]
          rw [hs1, List.any_cons, hhe]
          simp
      · rw [ihcol, List.any_cons]
        have hrepl :
            (L.any fun b => flipsB tl sp b
                && (s.flip (posOf tl e)).1.rows (posOf tl b).y (posOf tl b).x)
          = (L.any fun b => flipsB tl sp b
                && s.rows (posOf tl b).y (posOf tl b).x) := by
          apply anyCongr
          intro b hbL
          have hne : ¬((posOf tl b).y = (posOf tl e).y ∧ (posOf tl b).x = (posOf tl e).x) := by
            intro hco
            have hpos : posOf tl b = posOf tl e := Point.ext hco.2 hco.1
            exact heL (hinj b (by simp [hbL]) e (by simp) hpos ▸ hbL)
          have hsb : (s.flip (posOf tl e)).1.rows (posOf tl b).y (posOf tl b).x
              = s.rows (posOf tl b).y (posOf tl b).x := by
            simp only [Screen.flip]
            rw [if_neg hne]
          rw [hsb]
        rw [hrepl, hf]
        simp only [Bool.true_and]
        rw [Bool.or_assoc]
    · rw [Bool.not_eq_true] at hf
      rw [drawStep_of_not_flips hf]
      obtain ⟨ihrows, ihcol⟩ := ih hndL hinjL s c
      constructor
      · intro y x
        rw [ihrows y x, List.any_cons]
        have : hitsB tl sp e y x = false := by
          unfold hitsB
          rw [hf]
          simp
        rw [this]
        simp
      · rw [ihcol, List.any_cons, hf]
        simp
theorem mem_rowCols {n : Nat} {e : Nat × Nat} :
    e ∈ rowCols n ↔ e.1 < n ∧ e.2 < 8 := by
  unfold rowCols
  rcases e with ⟨dy, dx⟩
  simp only [List.mem_flatMap, List.mem_map, List.mem_range]
  constructor
  · rintro ⟨a, ha, b, hb, heq⟩
    cases heq
    exact ⟨ha, hb⟩
  · rintro ⟨h1, h2⟩
    exact ⟨dy, h1, dx, h2, rfl⟩

theorem rowCols_nodup (n : Nat) : (rowCols n).Nodup := by
  induction n with
  | zero => simp [rowCols]
  | succ n ih =>
    have hsplit : rowCols (n + 1)
        = rowCols n ++ (List.range 8).map fun dx => (n, dx) := by
      unfold rowCols
      rw [List.range_succ, List.flatMap_append]
      simp
    rw [hsplit]
    refine List.Nodup.append ih ?_ ?_
    · exact List.Nodup.map (fun a b hab => by simpa using hab) (List.nodup_range 8)
    · intro e he1 he2
      have h1 : e.1 < n := (mem_rowCols.mp he1).1
      simp only [List.mem_map, List.mem_range] at he2
      obtain ⟨dx, _, rfl⟩ := he2
      exact absurd h1 (by simp)

theorem toI8_of_lt {m : Nat} (h : m < 128) : toI8 m = (m : Int) := by
  unfold toI8
  rw [Nat.mod_eq_of_lt (by omega)]
  rw [if_pos h]

theorem posOf_inj_of_lt {tl : Point} {a b : Nat × Nat}
    (ha : a.1 < 128) (hb : b.1 < 128) (h : posOf tl a = posOf tl b) : a = b := by
  unfold posOf Point.add at h
  have hx : (a.2 : Int) = b.2 := by
    have := congrArg Point.x h
    simpa using this
  have hy : toI8 a.1 = toI8 b.1 := by
    have := congrArg Point.y h
    simpa using this
  rw [toI8_of_lt ha, toI8_of_lt hb] at hy
  cases a
  cases b
  simp only [Prod.mk.injEq]
  exact ⟨by exact_mod_cast hy, by exact_mod_cast hx⟩

theorem nested_foldl_eq (tl : Point) (sp : List Nat) :
    ∀ (ns : List Nat) (acc : Screen × Bool),
      ns.foldl (fun acc dy => (List.range 8).foldl
          (fun acc2 dx => drawStep tl sp acc2 (dy, dx)) acc) acc
        = (ns.flatMap fun dy => (List.range 8).map fun dx => (dy, dx)).foldl
            (drawStep tl sp) acc := by
  intro ns
  induction ns with
  | nil => intro acc; rfl
  | cons d ns ih =>
    intro acc
    rw [List.foldl_cons, List.flatMap_cons, List.foldl_append, ih, List.foldl_map]

theorem draw_sprite_eq_foldl (s : Screen) (tl : Point) (sp : List Nat) :
    Screen.draw_sprite s tl sp
      = (rowCols sp.length).foldl (drawStep tl sp) (s, false) :=
  nested_foldl_eq tl sp (List.range sp.length) (s, false)

theorem draw_sprite_spec (s : Screen) (tl : Point) (sp : List Nat)
    (hsp : sp.length ≤ 15) :
    (∀ y x, (Screen.draw_sprite s tl sp).1.rows y x
        = xor (s.rows y x) ((rowCols sp.length).any fun e => hitsB tl sp e y x))
    ∧ (Screen.draw_sprite s tl sp).2
        = ((rowCols sp.length).any fun e => flipsB tl sp e
              && s.rows (posOf tl e).y (posOf tl e).x) := by
  rw [draw_sprite_eq_foldl]
  have hinj : ∀ a ∈ rowCols sp.length, ∀ b ∈ rowCols sp.length,
      posOf tl a = posOf tl b → a = b := by
    intro a ha b hb h
    exact posOf_inj_of_lt (by have := (mem_rowCols.mp ha).1; omega)
      (by have := (mem_rowCols.mp hb).1; omega) h
  have := foldl_drawStep_spec tl sp (rowCols sp.length) (rowCols_nodup _) hinj s false
  simpa using this

/-- C8 (amended): drawing the same sprite (at most 15 rows, as produced by the
0xD instruction) twice at the same origin restores the prior display exactly,
and the second draw reports a collision iff the first draw turned some pixel
on (off → on). -/
theorem c8_double_draw_restores (s : Screen) (tl : Point) (sp : List Nat)
    (hsp : sp.length ≤ 15) :
    ((((s.draw_sprite tl sp).1).draw_sprite tl sp).1 = s)
  ∧ (((((s.draw_sprite tl sp).1).draw_sprite tl sp).2 = true) ↔
      ∃ y x : Int, s.rows y x = false ∧ (s.draw_sprite tl sp).1.rows y x = true) := by
  obtain ⟨h1r, _⟩ := draw_sprite_spec s tl sp hsp
  obtain ⟨h2r, h2c⟩ := draw_sprite_spec (s.draw_sprite tl sp).1 tl sp hsp
  constructor
  · ext y x
    rw [h2r y x, h1r y x, Bool.xor_assoc, Bool.xor_self, Bool.xor_false]
  · rw [h2c]
    constructor
    · intro h
      rw [List.any_eq_true] at h
      obtain ⟨e, heL, he⟩ := h
      rw [Bool.and_eq_true] at he
      obtain ⟨hfe, hrow⟩ := he
      refine ⟨(posOf tl e).y, (posOf tl e).x, ?_, hrow⟩
      have hA : ((rowCols sp.length).any
          fun b => hitsB tl sp b (posOf tl e).y (posOf tl e).x) = true := by
        rw [List.any_eq_true]
        exact ⟨e, heL, by unfold hitsB; simp [hfe]⟩
      have h1 := h1r (posOf tl e).y (posOf tl e).x
      rw [hA, Bool.xor_true, hrow] at h1
      cases hsr : s.rows (posOf tl e).y (posOf tl e).x
      · rfl
      · rw [hsr] at h1
        simp at h1
    · rintro ⟨y, x, hs0, hs1⟩
      have h1 := h1r y x
      rw [hs1, hs0, Bool.false_xor] at h1
      have hA := h1.symm
      rw [List.any_eq_true] at hA
      obtain ⟨e, heL, he⟩ := hA
      unfold hitsB at he
      simp only [Bool.and_eq_true, decide_eq_true_eq] at he
      obtain ⟨hfe, hy, hx⟩ := he
      rw [List.any_eq_true]
      refine ⟨e, heL, ?_⟩
      rw [Bool.and_eq_true]
      exact ⟨hfe, by rw [hy, hx]; exact hs1⟩

/-- C8 counterexample to the parenthetical equivalence "second draw reports a
collision iff the sprite has at least one set bit that is not clipped": with
every pixel of the prior display already set, sprite `[0x80]` at origin (0,0)
has a set non-clipped bit (bit 7 of row 0, landing in bounds at (0,0)), yet
the second draw reports NO collision — the first draw turned the pixel off,
so the second flip finds it unset. -/
theorem c8_counterexample :
    ((0x80 : Nat) &&& (1 <<< (7 - 0)) ≠ 0)
  ∧ ((posOf ⟨0, 0⟩ (0, 0)).in_bounds = true)
  ∧ ((((Screen.mk fun _ _ => true).draw_sprite ⟨0, 0⟩
        [0x80]).1.draw_sprite ⟨0, 0⟩ [0x80]).2 = false) := by
  refine ⟨by decide, by decide, by decide⟩

/-- C8 witness: the amended double-draw theorem at the empty screen, origin
(0,0), sprite `[0x80]`. -/
theorem c8_witness :
    ((((Screen.new.draw_sprite ⟨0, 0⟩ [0x80]).1).draw_sprite ⟨0, 0⟩ [0x80]).1
        = Screen.new)
  ∧ (((((Screen.new.draw_sprite ⟨0, 0⟩ [0x80]).1).draw_sprite ⟨0, 0⟩
        [0x80]).2 = true) ↔
      ∃ y x : Int, Screen.new.rows y x = false
        ∧ (Screen.new.draw_sprite ⟨0, 0⟩ [0x80]).1.rows y x = true) :=
  c8_double_draw_restores Screen.new ⟨0, 0⟩ [0x80] (by decide)
/-! ### Decode lemmas -/

theorem and_shl_shr (a m k : Nat) : (a &&& (m <<< k)) >>> k = (a >>> k) &&& m := by
  apply Nat.eq_of_testBit_eq
  intro i
  simp [Nat.testBit_shiftRight, Nat.testBit_and, Nat.testBit_shiftLeft]

theorem and_mask_mod (a : Nat) (k : Nat) : a &&& (2 ^ k - 1) = a % 2 ^ k :=
  Nat.and_pow_two_sub_one_eq_mod a k

theorem nibbles_eq {a b c d : Nat} (ha : a < 16) (hb : b < 16) (hc : c < 16)
    (hd : d < 16) :
    nibbles_from_u16 (a * 4096 + b * 256 + c * 16 + d) = (a, b, c, d) := by
  unfold nibbles_from_u16
  have h1 : (0xf000 : Nat) = 0xf <<< 12 := by decide
  have h2 : (0x0f00 : Nat) = 0xf <<< 8 := by decide
  have h3 : (0x00f0 : Nat) = 0xf <<< 4 := by decide
  have h4 : (0xf : Nat) = 2 ^ 4 - 1 := by decide
  rw [h1, h2, h3, and_shl_shr, and_shl_shr, and_shl_shr, h4,
    and_mask_mod, and_mask_mod, and_mask_mod, and_mask_mod]
  simp only [Nat.shiftRight_eq_div_pow, Prod.mk.injEq]
  norm_num
  omega

theorem low12_eq {a b c d : Nat} (hb : b < 16) (hc : c < 16) (hd : d < 16) :
    (a * 4096 + b * 256 + c * 16 + d) &&& 0x0fff = b * 256 + c * 16 + d := by
  have h : (0x0fff : Nat) = 2 ^ 12 - 1 := by decide
  rw [h, and_mask_mod]
  omega

theorem low8_eq {a b c d : Nat} (hc : c < 16) (hd : d < 16) :
    (a * 4096 + b * 256 + c * 16 + d) &&& 0x00ff = c * 16 + d := by
  have h : (0x00ff : Nat) = 2 ^ 8 - 1 := by decide
  rw [h, and_mask_mod]
  omega

/-- Fetch unfolding: when `pc + 1` is in bounds and the two instruction bytes
are known, `step` reduces to `exec` of the big-endian word with the
pre-advance PC recorded and `pc` advanced by 2. -/
theorem step_eq_exec {σ : Type} (io : Chip8IoModel σ) (m : Chip8) (s : σ)
    {hi lo : Nat}
    (hpc : m.pc + 1 < Mem.LEN)
    (hb1 : m.mem.bytes m.pc = hi) (hb2 : m.mem.bytes (m.pc + 1) = lo) :
    Chip8.step io m s
      = Chip8.exec io { m with pc := m.pc + 2 } s (hi * 256 + lo) m.pc := by
  unfold Chip8.step
  rw [if_pos (show m.pc < Mem.LEN by omega)]
  unfold Mem.read
  rw [if_pos (show m.pc < Mem.LEN by omega), if_pos hpc, hb1, hb2]
  rfl
/-- C5: instruction 0x8xy4 stores `(V[x] + V[y]) mod 256` into `V[x]` and then
sets `V[0xF]` to 1 iff the mathematical sum of the pre-instruction values is
at least 256 (else 0), for every pair of register indices and all register
contents. -/
theorem c5_add_wraps_carry {σ : Type} (io : Chip8IoModel σ) (s : σ) (m : Chip8)
    (x y : Nat) (hx : x < 16) (hy : y < 16)
    (hpc : m.pc + 1 < Mem.LEN)
    (hb1 : m.mem.bytes m.pc = 0x80 + x)
    (hb2 : m.mem.bytes (m.pc + 1) = y * 16 + 4) :
    Chip8.step io m s = .ok ({ m with pc := m.pc + 2, v := setV (setV m.v x ((m.v x + m.v y) % 256)) 0xf (if 256 ≤ m.v x + m.v y then 1 else 0) }, s) := by
  rw [step_eq_exec io m s hpc hb1 hb2]
  have hw : (0x80 + x) * 256 + (y * 16 + 4) = 8 * 4096 + x * 256 + y * 16 + 4 := by ring
  rw [hw]
  unfold Chip8.exec
  rw [nibbles_eq (by norm_num) hx hy (by norm_num)]
  norm_num
/-- C5 witness: `0x8124` on the demo machine (V1 = 0xCC, V2 = 0xAA;
0xCC + 0xAA = 0x176 ≥ 256, so V1 ← 0x76 and VF ← 1). -/
theorem c5_witness :
    Chip8.step unitIo (demoMachine 0x81 0x24) ()
      = .ok ({ demoMachine 0x81 0x24 with pc := (demoMachine 0x81 0x24).pc + 2, v := setV (setV (demoMachine 0x81 0x24).v 1 (((demoMachine 0x81 0x24).v 1 + (demoMachine 0x81 0x24).v 2) % 256)) 0xf (if 256 ≤ (demoMachine 0x81 0x24).v 1 + (demoMachine 0x81 0x24).v 2 then 1 else 0) }, ()) :=
  c5_add_wraps_carry unitIo () (demoMachine 0x81 0x24) 1 2 (by decide) (by decide)
    (by decide) (by decide) (by decide)

/-- C2: instructions 0x8xy1 (OR), 0x8xy2 (AND), 0x8xy3 (XOR) store the
bitwise result of `V[x]` and `V[y]` into `V[x]` and then set `V[0xF]` to 0
(so `V[0xF] = 0` afterwards, including when x = 0xF, where the flag reset
overwrites the stored result). -/
theorem c2_logic_ops_reset_vf {σ : Type} (io : Chip8IoModel σ) (s : σ)
    (m : Chip8) (x y n : Nat) (hx : x < 16) (hy : y < 16)
    (hn : n = 1 ∨ n = 2 ∨ n = 3)
    (hpc : m.pc + 1 < Mem.LEN)
    (hb1 : m.mem.bytes m.pc = 0x80 + x)
    (hb2 : m.mem.bytes (m.pc + 1) = y * 16 + n) :
    Chip8.step io m s = .ok ({ m with pc := m.pc + 2, v := setV (setV m.v x (if n = 1 then m.v x ||| m.v y else if n = 2 then m.v x &&& m.v y else m.v x ^^^ m.v y)) 0xf 0 }, s)
    ∧ (setV (setV m.v x (if n = 1 then m.v x ||| m.v y else if n = 2 then m.v x &&& m.v y else m.v x ^^^ m.v y)) 0xf 0) 0xf = 0 := by
  refine ⟨?_, rfl⟩
  rw [step_eq_exec io m s hpc hb1 hb2]
  rcases hn with rfl | rfl | rfl
  · have hw : (0x80 + x) * 256 + (y * 16 + 1) = 8 * 4096 + x * 256 + y * 16 + 1 := by ring
    rw [hw]
    unfold Chip8.exec
    rw [nibbles_eq (by norm_num) hx hy (by norm_num)]
    norm_num
  · have hw : (0x80 + x) * 256 + (y * 16 + 2) = 8 * 4096 + x * 256 + y * 16 + 2 := by ring
    rw [hw]
    unfold Chip8.exec
    rw [nibbles_eq (by norm_num) hx hy (by norm_num)]
    norm_num
  · have hw : (0x80 + x) * 256 + (y * 16 + 3) = 8 * 4096 + x * 256 + y * 16 + 3 := by ring
    rw [hw]
    unfold Chip8.exec
    rw [nibbles_eq (by norm_num) hx hy (by norm_num)]
    norm_num

/-- C2 witness: `0x8F11` (x = 0xF): the OR result is stored in V[0xF] and then
overwritten by the flag reset, leaving V[0xF] = 0. -/
theorem c2_witness :
    Chip8.step unitIo (demoMachine 0x8F 0x11) ()
      = .ok ({ demoMachine 0x8F 0x11 with pc := (demoMachine 0x8F 0x11).pc + 2, v := setV (setV (demoMachine 0x8F 0x11).v 0xf ((demoMachine 0x8F 0x11).v 0xf ||| (demoMachine 0x8F 0x11).v 1)) 0xf 0 }, ())
    ∧ (setV (setV (demoMachine 0x8F 0x11).v 0xf ((demoMachine 0x8F 0x11).v 0xf ||| (demoMachine 0x8F 0x11).v 1)) 0xf 0) 0xf = 0 := by
  have h := c2_logic_ops_reset_vf unitIo () (demoMachine 0x8F 0x11) 0xf 1 1
    (by decide) (by decide) (Or.inl rfl) (by decide) (by decide) (by decide)
  simpa using h

/-- C6: both shifts read their source from `V[y]`: 0x8xy6 stores `V[y] >> 1`
into `V[x]` with `V[0xF] = V[y] & 1` (pre-shift low bit); 0x8xyE stores the
low 8 bits of `V[y] << 1` into `V[x]` with `V[0xF] = 1` iff bit 7 of the
pre-shift `V[y]` is set. -/
theorem c6_shifts_read_vy {σ : Type} (io : Chip8IoModel σ) (s : σ)
    (m : Chip8) (x y : Nat) (hx : x < 16) (hy : y < 16)
    (hpc : m.pc + 1 < Mem.LEN)
    (hb1 : m.mem.bytes m.pc = 0x80 + x) :
    (m.mem.bytes (m.pc + 1) = y * 16 + 6 →
      Chip8.step io m s = .ok ({ m with pc := m.pc + 2, v := setV (setV m.v x (m.v y >>> 1)) 0xf (m.v y &&& 1) }, s))
    ∧ (m.mem.bytes (m.pc + 1) = y * 16 + 0xe →
      Chip8.step io m s = .ok ({ m with pc := m.pc + 2, v := setV (setV m.v x ((m.v y <<< 1) % 256)) 0xf (if m.v y &&& (1 <<< 7) ≠ 0 then 1 else 0) }, s)) := by
  constructor
  · intro hb2
    rw [step_eq_exec io m s hpc hb1 hb2]
    have hw : (0x80 + x) * 256 + (y * 16 + 6) = 8 * 4096 + x * 256 + y * 16 + 6 := by ring
    rw [hw]
    unfold Chip8.exec
    rw [nibbles_eq (by norm_num) hx hy (by norm_num)]
    rw [Nat.and_one_is_mod]
    norm_num
  · intro hb2
    rw [step_eq_exec io m s hpc hb1 hb2]
    have hw : (0x80 + x) * 256 + (y * 16 + 0xe) = 8 * 4096 + x * 256 + y * 16 + 0xe := by ring
    rw [hw]
    unfold Chip8.exec
    rw [nibbles_eq (by norm_num) hx hy (by norm_num)]
    norm_num

/-- C6 witness: `0x8126` (V1 ← V2 >> 1, VF ← V2 & 1 with V2 = 0xAA). -/
theorem c6_witness :
    Chip8.step unitIo (demoMachine 0x81 0x26) ()
      = .ok ({ demoMachine 0x81 0x26 with pc := (demoMachine 0x81 0x26).pc + 2, v := setV (setV (demoMachine 0x81 0x26).v 1 ((demoMachine 0x81 0x26).v 2 >>> 1)) 0xf ((demoMachine 0x81 0x26).v 2 &&& 1) }, ()) :=
  (c6_shifts_read_vy unitIo () (demoMachine 0x81 0x26) 1 2 (by decide) (by decide)
    (by decide) (by decide)).1 (by decide)
/-- C7: the call stack holds at most 16 return addresses: push on a stack
with fewer than 16 entries followed by pop returns the pushed address and
restores the prior contents; push with 16 entries present is the fatal
stack-overflow error; pop on the empty stack is the fatal stack-underflow
error. -/
theorem c7_stack_bounds :
    (∀ (s : List Nat) (addr : Nat), s.length < 16 →
      Stack.push s addr = .ok (s ++ [addr])
        ∧ Stack.pop (s ++ [addr]) = .ok (addr, s))
  ∧ (∀ (s : List Nat) (addr : Nat), s.length = 16 →
      Stack.push s addr = .error .stackOverflow)
  ∧ Stack.pop [] = .error .stackUnderflow := by
  refine ⟨?_, ?_, rfl⟩
  · intro s addr h
    constructor
    · unfold Stack.push
      rw [if_neg (by unfold Stack.CAPACITY; omega)]
    · unfold Stack.pop
      rw [List.getLast?_concat, List.dropLast_concat]
  · intro s addr h
    unfold Stack.push
    rw [if_pos (by unfold Stack.CAPACITY; omega)]

/-- C7 witness: push then pop of 0x0204 on a singleton stack, overflow on a
full stack, underflow on the empty stack. -/
theorem c7_witness :
    (Stack.push [0x0202] 0x0204 = .ok [0x0202, 0x0204]
      ∧ Stack.pop [0x0202, 0x0204] = .ok (0x0204, [0x0202]))
  ∧ Stack.push [1, 2, 3, 4, 5, 6, 7, 8, 9, 10, 11, 12, 13, 14, 15, 16] 17
      = .error .stackOverflow :=
  ⟨c7_stack_bounds.1 [0x0202] 0x0204 (by decide),
    c7_stack_bounds.2.1 [1, 2, 3, 4, 5, 6, 7, 8, 9, 10, 11, 12, 13, 14, 15, 16]
      17 (by decide)⟩

set_option maxRecDepth 8192 in
/-- Length of the flattened digit-sprite table. -/
theorem digits_rom_length : digits_rom.length = 80 := by decide

set_option maxRecDepth 8192 in
/-- C9: constructing the VM from a program image of length `len` succeeds iff
`len ≤ 4096 − 0x200`; on success the program bytes sit at `0x200..0x200+len`
and every non-font byte outside that range is zero; on failure the
construction error surfaces from `Chip8::new` (via `Mem::new`) before any
instruction executes. -/
theorem c9_construction :
    ∀ rom : List Nat,
      (rom.length ≤ Mem.LEN - Mem.ROM_START →
        ∃ mem, Mem.new rom = .ok mem
          ∧ Chip8.new rom = .ok { pc := Mem.ROM_START, i := 0, stack := [], v := Regs.new, mem := mem }
          ∧ (∀ k, k < rom.length → mem.bytes (Mem.ROM_START + k) = rom.getD k 0)
          ∧ (∀ a, digits_rom.length ≤ a →
              a < Mem.ROM_START ∨ Mem.ROM_START + rom.length ≤ a →
              mem.bytes a = 0))
    ∧ (Mem.LEN - Mem.ROM_START < rom.length →
        Mem.new rom = .error .programTooLarge
          ∧ Chip8.new rom = .error .programTooLarge) := by
  intro rom
  constructor
  · intro hlen
    have hok : Mem.ROM_START + rom.length ≤ Mem.LEN := by
      unfold Mem.LEN Mem.ROM_START at hlen ⊢
      omega
    refine ⟨⟨fun a => if a < digits_rom.length then digits_rom.getD a 0 else if Mem.ROM_START ≤ a ∧ a < Mem.ROM_START + rom.length then rom.getD (a - Mem.ROM_START) 0 else 0⟩, ?_, ?_, ?_, ?_⟩
    · unfold Mem.new
      rw [if_pos hok]
    · unfold Chip8.new Mem.new
      rw [if_pos hok]
      rfl
    · intro k hk
      have h80 : ¬(Mem.ROM_START + k < digits_rom.length) := by
        unfold Mem.ROM_START
        rw [digits_rom_length]
        omega
      show (if Mem.ROM_START + k < digits_rom.length then digits_rom.getD (Mem.ROM_START + k) 0
        else if Mem.ROM_START ≤ Mem.ROM_START + k ∧ Mem.ROM_START + k < Mem.ROM_START + rom.length then rom.getD (Mem.ROM_START + k - Mem.ROM_START) 0
        else 0) = rom.getD k 0
      rw [if_neg h80, if_pos ⟨by omega, by omega⟩]
      congr 1
      omega
    · intro a ha hout
      show (if a < digits_rom.length then digits_rom.getD a 0
        else if Mem.ROM_START ≤ a ∧ a < Mem.ROM_START + rom.length then rom.getD (a - Mem.ROM_START) 0
        else 0) = 0
      rw [if_neg (by omega), if_neg (by unfold Mem.ROM_START at hout ⊢; omega)]
  · intro hlen
    have hbad : ¬(Mem.ROM_START + rom.length ≤ Mem.LEN) := by
      unfold Mem.LEN Mem.ROM_START at hlen ⊢
      omega
    constructor
    · unfold Mem.new
      rw [if_neg hbad]
    · unfold Chip8.new Mem.new
      rw [if_neg hbad]
      rfl

/-- C9 witness: the two-byte program `[0xAB, 0xCD]` loads at 0x200/0x201 with
the surrounding non-font bytes zero. -/
theorem c9_witness :
    ∃ mem, Mem.new [0xAB, 0xCD] = .ok mem
      ∧ Chip8.new [0xAB, 0xCD] = .ok { pc := Mem.ROM_START, i := 0, stack := [], v := Regs.new, mem := mem }
      ∧ (∀ k, k < [(0xAB : Nat), 0xCD].length →
          mem.bytes (Mem.ROM_START + k) = [(0xAB : Nat), 0xCD].getD k 0)
      ∧ (∀ a, digits_rom.length ≤ a →
          a < Mem.ROM_START ∨ Mem.ROM_START + [(0xAB : Nat), 0xCD].length ≤ a →
          mem.bytes a = 0) :=
  (c9_construction [0xAB, 0xCD]).1 (by decide)
/-! ### The register/memory block-transfer loops (0xFx55 / 0xFx65) -/

theorem writeRegs_ok (i : Nat) (f : Nat → Nat) :
    ∀ (xr : Nat) (mm : Mem), i + xr < Mem.LEN →
      ∃ mm', (List.range (xr + 1)).foldlM
          (fun acc reg => acc.write (i + reg) (f reg)) mm = .ok mm'
        ∧ (∀ r, r ≤ xr → mm'.bytes (i + r) = f r)
        ∧ (∀ a, (∀ r, r ≤ xr → a ≠ i + r) → mm'.bytes a = mm.bytes a) := by
  intro xr
  induction xr with
  | zero =>
    intro mm h
    refine ⟨⟨fun b => if b = i + 0 then f 0 else mm.bytes b⟩, ?_, ?_, ?_⟩
    · have hw : Mem.write mm (i + 0) (f 0)
          = .ok ⟨fun b => if b = i + 0 then f 0 else mm.bytes b⟩ := by
        unfold Mem.write
        rw [if_pos (by omega)]
      rw [show List.range 1 = [0] from rfl, List.foldlM_cons, hw]
      rfl
    · intro r hr
      show (if i + r = i + 0 then f 0 else mm.bytes (i + r)) = f r
      rw [if_pos (by omega)]
      congr 1
      omega
    · intro a ha
      show (if a = i + 0 then f 0 else mm.bytes a) = mm.bytes a
      rw [if_neg (ha 0 (by omega))]
  | succ n ih =>
    intro mm h
    obtain ⟨mm1, hfold, hset, hkeep⟩ := ih mm (by omega)
    refine ⟨⟨fun b => if b = i + (n + 1) then f (n + 1) else mm1.bytes b⟩, ?_, ?_, ?_⟩
    · have hw : Mem.write mm1 (i + (n + 1)) (f (n + 1))
          = .ok ⟨fun b => if b = i + (n + 1) then f (n + 1) else mm1.bytes b⟩ := by
        unfold Mem.write
        rw [if_pos (by omega)]
      rw [List.range_succ, List.foldlM_append, hfold]
      change List.foldlM (fun acc reg => acc.write (i + reg) (f reg)) mm1 [n + 1] = _
      rw [List.foldlM_cons, hw]
      rfl
    · intro r hr
      rcases Nat.lt_or_ge r (n + 1) with hlt | hge
      · show (if i + r = i + (n + 1) then f (n + 1) else mm1.bytes (i + r)) = f r
        rw [if_neg (by omega)]
        exact hset r (by omega)
      · show (if i + r = i + (n + 1) then f (n + 1) else mm1.bytes (i + r)) = f r
        rw [if_pos (by omega)]
        congr 1
        omega
    · intro a ha
      show (if a = i + (n + 1) then f (n + 1) else mm1.bytes a) = mm.bytes a
      rw [if_neg (ha (n + 1) (by omega))]
      exact hkeep a fun r hr => ha r (by omega)

theorem readRegs_ok (i : Nat) (mm : Mem) :
    ∀ (xr : Nat) (v : Regs), i + xr < Mem.LEN →
      ∃ v', (List.range (xr + 1)).foldlM
          (fun vv reg => do
            let b ← mm.read (i + reg)
            .ok (setV vv reg b)) v = .ok v'
        ∧ (∀ r, r ≤ xr → v' r = mm.bytes (i + r))
        ∧ (∀ r, xr < r → v' r = v r) := by
  intro xr
  induction xr with
  | zero =>
    intro v h
    refine ⟨setV v 0 (mm.bytes (i + 0)), ?_, ?_, ?_⟩
    · have hr : Mem.read mm (i + 0) = .ok (mm.bytes (i + 0)) := by
        unfold Mem.read
        rw [if_pos (by omega)]
      rw [show List.range 1 = [0] from rfl]
      simp only [List.foldlM_cons, List.foldlM_nil]
      rw [hr]
      rfl
    · intro r hr
      show (if r = 0 then mm.bytes (i + 0) else v r) = mm.bytes (i + r)
      rw [if_pos (by omega)]
      congr 2
      omega
    · intro r hr
      show (if r = 0 then mm.bytes (i + 0) else v r) = v r
      rw [if_neg (by omega)]
  | succ n ih =>
    intro v h
    obtain ⟨v1, hfold, hset, hkeep⟩ := ih v (by omega)
    refine ⟨setV v1 (n + 1) (mm.bytes (i + (n + 1))), ?_, ?_, ?_⟩
    · have hr : Mem.read mm (i + (n + 1)) = .ok (mm.bytes (i + (n + 1))) := by
        unfold Mem.read
        rw [if_pos (by omega)]
      rw [List.range_succ, List.foldlM_append, hfold]
      simp only [List.foldlM_cons, List.foldlM_nil]
      show (do
        let b ← mm.read (i + (n + 1))
        (Except.ok (setV v1 (n + 1) b) : Except Chip8Error Regs)) >>= _ = _
      rw [hr]
      rfl
    · intro r hr
      rcases Nat.lt_or_ge r (n + 1) with hlt | hge
      · show (if r = n + 1 then mm.bytes (i + (n + 1)) else v1 r) = mm.bytes (i + r)
        rw [if_neg (by omega)]
        exact hset r (by omega)
      · show (if r = n + 1 then mm.bytes (i + (n + 1)) else v1 r) = mm.bytes (i + r)
        rw [if_pos (by omega)]
        congr 2
        omega
    · intro r hr
      show (if r = n + 1 then mm.bytes (i + (n + 1)) else v1 r) = v r
      rw [if_neg (by omega)]
      exact hkeep r (by omega)
/-- C10: besides the documented block transfer, 0xFx55 (registers → memory)
and 0xFx65 (memory → registers) also increment the index register:
new I = old I + x + 1. -/
theorem c10_block_transfer_increments_i {σ : Type} (io : Chip8IoModel σ)
    (s : σ) (m : Chip8) (x lo : Nat) (hx : x < 16)
    (hlo : lo = 0x55 ∨ lo = 0x65)
    (hpc : m.pc + 1 < Mem.LEN)
    (hbound : m.i + x < Mem.LEN)
    (hb1 : m.mem.bytes m.pc = 0xF0 + x)
    (hb2 : m.mem.bytes (m.pc + 1) = lo) :
    ∃ m', Chip8.step io m s = .ok (m', s)
      ∧ m'.i = m.i + x + 1
      ∧ m'.pc = m.pc + 2
      ∧ (lo = 0x55 → (∀ r, r ≤ x → m'.mem.bytes (m.i + r) = m.v r) ∧ m'.v = m.v)
      ∧ (lo = 0x65 → (∀ r, r ≤ x → m'.v r = m.mem.bytes (m.i + r)) ∧ m'.mem = m.mem) := by
  have hb4 : m.i + x < 4096 := hbound
  rcases hlo with rfl | rfl
  · obtain ⟨mm', hfold, hset, hkeep⟩ := writeRegs_ok m.i m.v x m.mem hbound
    refine ⟨{ m with pc := m.pc + 2, mem := mm', i := (m.i + x + 1) % 65536 },
      ?_, by show (m.i + x + 1) % 65536 = m.i + x + 1; omega, rfl,
      fun _ => ⟨hset, rfl⟩, fun hc => absurd hc (by norm_num)⟩
    rw [step_eq_exec io m s hpc hb1 hb2]
    have hw : (0xF0 + x) * 256 + 0x55 = 15 * 4096 + x * 256 + 5 * 16 + 5 := by
      ring
    rw [hw]
    unfold Chip8.exec
    rw [nibbles_eq (by norm_num) hx (by norm_num) (by norm_num),
      low8_eq (by norm_num) (by norm_num)]
    norm_num
    rw [hfold]
    rfl
  · obtain ⟨v', hfold, hset, hkeep⟩ := readRegs_ok m.i m.mem x m.v hbound
    refine ⟨{ m with pc := m.pc + 2, v := v', i := (m.i + x + 1) % 65536 },
      ?_, by show (m.i + x + 1) % 65536 = m.i + x + 1; omega, rfl,
      fun hc => absurd hc (by norm_num), fun _ => ⟨hset, rfl⟩⟩
    rw [step_eq_exec io m s hpc hb1 hb2]
    have hw : (0xF0 + x) * 256 + 0x65 = 15 * 4096 + x * 256 + 6 * 16 + 5 := by
      ring
    rw [hw]
    unfold Chip8.exec
    rw [nibbles_eq (by norm_num) hx (by norm_num) (by norm_num),
      low8_eq (by norm_num) (by norm_num)]
    norm_num
    rw [hfold]
    rfl

/-- C10 witness: `0xF155` on the demo machine (I = 0x300): V0, V1 are copied
to 0x300/0x301 and I becomes 0x302 = 0x300 + 1 + 1. -/
theorem c10_witness :
    ∃ m', Chip8.step unitIo (demoMachine 0xF1 0x55) () = .ok (m', ())
      ∧ m'.i = (demoMachine 0xF1 0x55).i + 1 + 1
      ∧ m'.pc = (demoMachine 0xF1 0x55).pc + 2
      ∧ ((0x55 : Nat) = 0x55 → (∀ r, r ≤ 1 →
          m'.mem.bytes ((demoMachine 0xF1 0x55).i + r) = (demoMachine 0xF1 0x55).v r)
            ∧ m'.v = (demoMachine 0xF1 0x55).v)
      ∧ ((0x55 : Nat) = 0x65 → (∀ r, r ≤ 1 →
          m'.v r = (demoMachine 0xF1 0x55).mem.bytes ((demoMachine 0xF1 0x55).i + r))
            ∧ m'.mem = (demoMachine 0xF1 0x55).mem) :=
  c10_block_transfer_increments_i unitIo () (demoMachine 0xF1 0x55) 1 0x55
    (by decide) (Or.inl rfl) (by decide) (by decide) (by decide) (by decide)
/-- C3 (amended): every op/sub-op combination missing from the dispatch table
aborts execution unrecoverably.  For op 0x0 words other than 0x00E0/0x00EE,
op 0x8 with n ∉ {0,…,7,0xE}, op 0xE with k ∉ {0x9E,0xA1} and op 0xF with an
unlisted k, the error is the decode error whose diagnostic carries the raw
16-bit word and the pre-advance PC.  For op 0x5 or 0x9 with n ≠ 0 the abort
comes from `assert_eq!(n, 0)`, whose diagnostic reports only the compared
sub-nibble and 0 — not the instruction word or the PC. -/
theorem c3_invalid_opcodes_fatal {σ : Type} (io : Chip8IoModel σ) (s : σ)
    (m : Chip8) (hpc : m.pc + 1 < Mem.LEN) :
    (∀ b c d : Nat, b < 16 → c < 16 → d < 16 →
      m.mem.bytes m.pc = b → m.mem.bytes (m.pc + 1) = c * 16 + d →
      b * 256 + (c * 16 + d) ≠ 0x00e0 → b * 256 + (c * 16 + d) ≠ 0x00ee →
      Chip8.step io m s = .error (.decodeError (b * 256 + (c * 16 + d)) m.pc))
  ∧ (∀ x y n : Nat, x < 16 → y < 16 → n < 16 →
      m.mem.bytes m.pc = 0x80 + x → m.mem.bytes (m.pc + 1) = y * 16 + n →
      ¬(n = 0 ∨ n = 1 ∨ n = 2 ∨ n = 3 ∨ n = 4 ∨ n = 5 ∨ n = 6 ∨ n = 7 ∨ n = 0xe) →
      Chip8.step io m s = .error (.decodeError ((0x80 + x) * 256 + (y * 16 + n)) m.pc))
  ∧ (∀ x c d : Nat, x < 16 → c < 16 → d < 16 →
      m.mem.bytes m.pc = 0xE0 + x → m.mem.bytes (m.pc + 1) = c * 16 + d →
      c * 16 + d ≠ 0x9e → c * 16 + d ≠ 0xa1 →
      Chip8.step io m s = .error (.decodeError ((0xE0 + x) * 256 + (c * 16 + d)) m.pc))
  ∧ (∀ x c d : Nat, x < 16 → c < 16 → d < 16 →
      m.mem.bytes m.pc = 0xF0 + x → m.mem.bytes (m.pc + 1) = c * 16 + d →
      ¬(c * 16 + d = 0x07 ∨ c * 16 + d = 0x0a ∨ c * 16 + d = 0x15
        ∨ c * 16 + d = 0x18 ∨ c * 16 + d = 0x1e ∨ c * 16 + d = 0x29
        ∨ c * 16 + d = 0x33 ∨ c * 16 + d = 0x55 ∨ c * 16 + d = 0x65) →
      Chip8.step io m s = .error (.decodeError ((0xF0 + x) * 256 + (c * 16 + d)) m.pc))
  ∧ (∀ op x y n : Nat, (op = 5 ∨ op = 9) → x < 16 → y < 16 → n < 16 → n ≠ 0 →
      m.mem.bytes m.pc = op * 16 + x → m.mem.bytes (m.pc + 1) = y * 16 + n →
      Chip8.step io m s = .error (.assertEqFailed n 0)) := by
  refine ⟨?_, ?_, ?_, ?_, ?_⟩
  · intro b c d hb hc hd hb1 hb2 hne1 hne2
    rw [step_eq_exec io m s hpc hb1 hb2,
      show b * 256 + (c * 16 + d) = 0 * 4096 + b * 256 + c * 16 + d from by ring]
    unfold Chip8.exec
    rw [nibbles_eq (by norm_num) hb hc hd]
    norm_num [show b * 256 + c * 16 + d ≠ 224 from by omega,
      show b * 256 + c * 16 + d ≠ 238 from by omega]
  · intro x y n hx hy hn hb1 hb2 hlist
    rw [step_eq_exec io m s hpc hb1 hb2,
      show (0x80 + x) * 256 + (y * 16 + n) = 8 * 4096 + x * 256 + y * 16 + n from by ring]
    unfold Chip8.exec
    rw [nibbles_eq (by norm_num) hx hy hn]
    norm_num [show n ≠ 0 from by omega, show n ≠ 1 from by omega,
      show n ≠ 2 from by omega, show n ≠ 3 from by omega,
      show n ≠ 4 from by omega, show n ≠ 5 from by omega,
      show n ≠ 6 from by omega, show n ≠ 7 from by omega,
      show n ≠ 14 from by omega]
  · intro x c d hx hc hd hb1 hb2 hne1 hne2
    rw [step_eq_exec io m s hpc hb1 hb2,
      show (0xE0 + x) * 256 + (c * 16 + d) = 14 * 4096 + x * 256 + c * 16 + d from by ring]
    unfold Chip8.exec
    rw [nibbles_eq (by norm_num) hx hc hd, low8_eq hc hd]
    norm_num [hne1, hne2]
  · intro x c d hx hc hd hb1 hb2 hlist
    rw [step_eq_exec io m s hpc hb1 hb2,
      show (0xF0 + x) * 256 + (c * 16 + d) = 15 * 4096 + x * 256 + c * 16 + d from by ring]
    unfold Chip8.exec
    rw [nibbles_eq (by norm_num) hx hc hd, low8_eq hc hd]
    norm_num [show c * 16 + d ≠ 0x07 from by omega,
      show c * 16 + d ≠ 0x0a from by omega, show c * 16 + d ≠ 0x15 from by omega,
      show c * 16 + d ≠ 0x18 from by omega, show c * 16 + d ≠ 0x1e from by omega,
      show c * 16 + d ≠ 0x29 from by omega, show c * 16 + d ≠ 0x33 from by omega,
      show c * 16 + d ≠ 0x55 from by omega, show c * 16 + d ≠ 0x65 from by omega]
  · intro op x y n hop hx hy hn hn0 hb1 hb2
    rcases hop with rfl | rfl
    · rw [step_eq_exec io m s hpc hb1 hb2,
        show (5 * 16 + x) * 256 + (y * 16 + n) = 5 * 4096 + x * 256 + y * 16 + n from by ring]
      unfold Chip8.exec
      rw [nibbles_eq (by norm_num) hx hy hn]
      norm_num [hn0]
    · rw [step_eq_exec io m s hpc hb1 hb2,
        show (9 * 16 + x) * 256 + (y * 16 + n) = 9 * 4096 + x * 256 + y * 16 + n from by ring]
      unfold Chip8.exec
      rw [nibbles_eq (by norm_num) hx hy hn]
      norm_num [hn0]
/-- C3 counterexample: for op 0x5 with n ≠ 0 (here instruction 0x5121 fetched
from PC = 0x200) the claim predicts a decode error reporting the raw word and
the pre-advance PC, but the interpreter aborts through `assert_eq!(n, 0)`,
whose diagnostic carries only the sub-nibble `1` and `0`. -/
theorem c3_counterexample :
    Chip8.step unitIo (demoMachine 0x51 0x21) ()
        = .error (.assertEqFailed 1 0)
  ∧ Chip8.step unitIo (demoMachine 0x51 0x21) ()
        ≠ .error (.decodeError 0x5121 0x200) := by
  have h1 : Chip8.step unitIo (demoMachine 0x51 0x21) ()
      = .error (.assertEqFailed 1 0) := rfl
  refine ⟨h1, ?_⟩
  intro h
  rw [h1] at h
  simp at h

/-- C3 witness: the unlisted op-0 word 0x0123 produces the decode error
carrying the word and the pre-advance PC 0x200. -/
theorem c3_witness :
    Chip8.step unitIo (demoMachine 0x01 0x23) ()
      = .error (.decodeError (1 * 256 + (2 * 16 + 3)) (demoMachine 0x01 0x23).pc) :=
  (c3_invalid_opcodes_fatal unitIo () (demoMachine 0x01 0x23) (by decide)).1
    1 2 3 (by decide) (by decide) (by decide) (by decide) (by decide)
    (by decide) (by decide)
/-- C4: the blocking key-wait resolves only on a key-up edge: it returns the
keycode of the first release event in the stream; any prefix of presses,
repeats and irrelevant events never causes a return, and a stream with no
release at all never returns.  At the CPU, 0xFx0A stores the keycode
delivered by the I/O boundary's `blocking_get_key` into `V[x]`. -/
theorem c4_key_wait_release_edge :
    (∀ (kb : Keyboard) (pre : List (Option (Nat × Bool))) (k : Nat)
        (rest : List (Option (Nat × Bool))),
      (∀ e ∈ pre, isRelease e = false) →
      ∃ kb', Keyboard.wait_for_key_release kb (pre ++ some (k, false) :: rest)
          = some (k, kb') ∧ kb'.pressed k = false)
  ∧ (∀ (kb : Keyboard) (events : List (Option (Nat × Bool))),
      (∀ e ∈ events, isRelease e = false) →
      Keyboard.wait_for_key_release kb events = none)
  ∧ (∀ (σ : Type) (io : Chip8IoModel σ) (s : σ) (m : Chip8) (x : Nat),
      x < 16 → m.pc + 1 < Mem.LEN →
      m.mem.bytes m.pc = 0xF0 + x → m.mem.bytes (m.pc + 1) = 0x0a →
      Chip8.step io m s = .ok ({ m with pc := m.pc + 2, v := setV m.v x (io.blocking_get_key s).1 }, (io.blocking_get_key s).2)) := by
  refine ⟨?_, ?_, ?_⟩
  · intro kb pre
    induction pre generalizing kb with
    | nil =>
      intro k rest _
      refine ⟨⟨fun idx => if idx = k then false else kb.pressed idx⟩, rfl, ?_⟩
      simp
    | cons e pre ih =>
      intro k rest h
      have hrel : isRelease e = false := h e (by simp)
      match e with
      | none =>
        exact ih kb k rest fun a ha => h a (by simp [ha])
      | some (kc, true) =>
        show ∃ kb2, Keyboard.wait_for_key_release
            ⟨fun idx => if idx = kc then true else kb.pressed idx⟩
            (pre ++ some (k, false) :: rest) = some (k, kb2)
          ∧ kb2.pressed k = false
        exact ih _ k rest fun a ha => h a (by simp [ha])
      | some (kc, false) =>
        exact absurd hrel (by simp [isRelease])
  · intro kb events
    induction events generalizing kb with
    | nil => intro _; rfl
    | cons e events ih =>
      intro h
      have hrel : isRelease e = false := h e (by simp)
      match e with
      | none => exact ih kb fun a ha => h a (by simp [ha])
      | some (kc, true) =>
        show Keyboard.wait_for_key_release
          ⟨fun idx => if idx = kc then true else kb.pressed idx⟩ events = none
        exact ih _ fun a ha => h a (by simp [ha])
      | some (kc, false) =>
        exact absurd hrel (by simp [isRelease])
  · intro σ io s m x hx hpc hb1 hb2
    rw [step_eq_exec io m s hpc hb1 hb2,
      show (0xF0 + x) * 256 + 0x0a = 15 * 4096 + x * 256 + 0 * 16 + 10 from by ring]
    unfold Chip8.exec
    rw [nibbles_eq (by norm_num) hx (by norm_num) (by norm_num),
      low8_eq (by norm_num) (by norm_num)]
    norm_num
/-- C4 witness: with events [irrelevant, press 3, release 5, press 7] the
wait returns keycode 5 — the first (and only) release — with key 5 recorded
as not pressed. -/
theorem c4_witness :
    ∃ kb', Keyboard.wait_for_key_release ⟨fun _ => false⟩
        ([none, some (3, true)] ++ some (5, false) :: [some (7, true)])
        = some (5, kb')
      ∧ kb'.pressed 5 = false :=
  c4_key_wait_release_edge.1 ⟨fun _ => false⟩ [none, some (3, true)] 5
    [some (7, true)] (by decide)

/-- C1: the sprite-draw origin `(V[x], V[y])` is interpreted as signed 8-bit
coordinates wrapped modulo the 64x32 grid (origin x = −1, i.e. byte 255, maps
to column 63; byte 252 (−4) draws identically to byte 60), while every sprite
pixel whose absolute position (wrapped origin + per-pixel offset) falls
outside the grid is dropped: a pixel can only change when it equals
origin + (dx, dy) with that position inside the grid — never a wrapped one. -/
theorem c1_draw_origin_wraps_pixels_clip :
    (∀ vy : Nat, (sprite_origin 255 vy).x = 63)
  ∧ (∀ (vy : Nat) (sp : List Nat) (s : Screen),
      draw_at_regs 252 vy sp s = draw_at_regs 60 vy sp s)
  ∧ (∀ (vx vy : Nat) (sp : List Nat) (s : Screen) (y x : Int),
      sp.length ≤ 15 →
      (draw_at_regs vx vy sp s).1.rows y x ≠ s.rows y x →
      ∃ dy dx : Nat, dy < sp.length ∧ dx < 8
        ∧ sp.getD dy 0 &&& (1 <<< (7 - dx)) ≠ 0
        ∧ y = (sprite_origin vx vy).y + dy
        ∧ x = (sprite_origin vx vy).x + dx
        ∧ 0 ≤ y ∧ y < 32 ∧ 0 ≤ x ∧ x < 64)
  ∧ (∀ (σ : Type) (io : Chip8IoModel σ) (s : σ) (m : Chip8) (x y n : Nat),
      x < 16 → y < 16 → n < 16 →
      m.pc + 1 < Mem.LEN → m.i + n ≤ Mem.LEN →
      m.mem.bytes m.pc = 0xD0 + x → m.mem.bytes (m.pc + 1) = y * 16 + n →
      Chip8.step io m s = .ok ({ m with pc := m.pc + 2, v := setV m.v 0xf (if (io.draw_sprite s (sprite_origin (m.v x) (m.v y)) ((List.range n).map fun dy => m.mem.bytes (m.i + dy))).1 then 1 else 0) }, (io.draw_sprite s (sprite_origin (m.v x) (m.v y)) ((List.range n).map fun dy => m.mem.bytes (m.i + dy))).2)) := by
  refine ⟨?_, ?_, ?_, ?_⟩
  · intro vy
    show (toI8 255).emod DIMS.x = 63
    decide
  · intro vy sp s
    unfold draw_at_regs
    have horig : sprite_origin 252 vy = sprite_origin 60 vy := by
      unfold sprite_origin Point.wrap
      ext
      · show (toI8 252).emod DIMS.x = (toI8 60).emod DIMS.x
        decide
      · rfl
    rw [horig]
  · intro vx vy sp s y x hsp hne
    have hrows := (draw_sprite_spec s (sprite_origin vx vy) sp hsp).1 y x
    unfold draw_at_regs at hne
    rw [hrows] at hne
    have hA : ((rowCols sp.length).any
        fun e => hitsB (sprite_origin vx vy) sp e y x) = true := by
      by_contra h
      rw [Bool.not_eq_true] at h
      rw [h, Bool.xor_false] at hne
      exact hne rfl
    rw [List.any_eq_true] at hA
    obtain ⟨e, heL, he⟩ := hA
    obtain ⟨hdy, hdx⟩ := mem_rowCols.mp heL
    unfold hitsB flipsB at he
    simp only [Bool.and_eq_true, decide_eq_true_eq] at he
    obtain ⟨⟨hib, hbit⟩, hy, hx⟩ := he
    have hb := hib
    unfold Point.in_bounds at hb
    simp only [Bool.and_eq_true, decide_eq_true_eq] at hb
    have hposy : (posOf (sprite_origin vx vy) e).y
        = (sprite_origin vx vy).y + e.1 := by
      unfold posOf Point.add
      rw [toI8_of_lt (show e.1 < 128 by omega)]
    have hposx : (posOf (sprite_origin vx vy) e).x
        = (sprite_origin vx vy).x + e.2 := rfl
    refine ⟨e.1, e.2, hdy, hdx, hbit, ?_, ?_, ?_, ?_, ?_, ?_⟩
    · rw [← hy, hposy]
    · rw [← hx, hposx]
    · rw [← hy]; exact hb.2.1
    · rw [← hy]; exact hb.2.2
    · rw [← hx]; exact hb.1.1
    · rw [← hx]; exact hb.1.2
  · intro σ io s m x y n hx hy hn hpc hin hb1 hb2
    rw [step_eq_exec io m s hpc hb1 hb2,
      show (0xD0 + x) * 256 + (y * 16 + n) = 13 * 4096 + x * 256 + y * 16 + n from by ring]
    unfold Chip8.exec
    rw [nibbles_eq (by norm_num) hx hy hn]
    norm_num
    unfold Chip8.draw_sprite sprite_origin
    rw [if_pos ⟨by omega, by omega, by omega, hin⟩]

/-- C1 witness: concrete instance of the clipping characterization — drawing
`[0x80]` at origin (0,0) on the empty screen changes pixel (0,0), and the
characterization locates the responsible in-bounds sprite bit. -/
theorem c1_witness :
    ∃ dy dx : Nat, dy < [(0x80 : Nat)].length ∧ dx < 8
      ∧ [(0x80 : Nat)].getD dy 0 &&& (1 <<< (7 - dx)) ≠ 0
      ∧ (0 : Int) = (sprite_origin 0 0).y + dy
      ∧ (0 : Int) = (sprite_origin 0 0).x + dx
      ∧ (0 : Int) ≤ 0 ∧ (0 : Int) < 32 ∧ (0 : Int) ≤ 0 ∧ (0 : Int) < 64 :=
  c1_draw_origin_wraps_pixels_clip.2.2.1 0 0 [0x80] Screen.new 0 0 (by decide)
    (by decide)
